import Mathlib

/-!
Verification of the GitHub-Wrapped commit crawler and analytics engine.

This file gives a shallow embedding, in Lean, of the core functions of the
repository (the adaptive commit crawler `searchAllCommitsByUser`, the
range searcher `searchCommitsInRange`, the commit classifier and analyzer
`analyzeCommits`, the project scorer, and the highlight selector from
`generateWrapped` / `buildRepoHighlights`), and proves or refutes the
stated properties of those functions.

Conventions of the embedding:

* Calendar dates inside the target year are represented by their 1-based
  day-of-year index (a natural number).  The JavaScript source represents
  them as ISO `YYYY-MM-DD` strings; within a fixed year the two
  representations are in order-preserving bijection, and the successor
  calendar day corresponds to the successor index, so the source's
  day-by-day loops become `List.range'` enumerations.
* JavaScript `Date` timestamps are UTC milliseconds since the epoch,
  modelled as natural numbers; the UTC calendar day of a timestamp is its
  quotient by 86400000 and the UTC hour is `(ms / 3600000) % 24`.
* JavaScript numbers appearing in the derived metrics are modelled as
  rationals (`ℚ`).
* The upstream GitHub search API is modelled as an oracle: a function from
  a date range (resp. a page index) to the response the network would
  deliver for that query.
-/

namespace GithubWrapped

/-! ## Calendar model

`isLeap`, `daysInMonth` model the Gregorian rules used by the JavaScript
`Date` object (`new Date(year, m, 0).getDate()` is the number of days of
month `m`).  `monthStart`/`monthEnd` are the day-of-year indices of the
first and last day of a month, mirroring the strings
`${year}-${mm}-01` and `${year}-${mm}-${lastDay}` built by
`searchAllCommitsByUser`. -/

def isLeap (y : ℕ) : Bool :=
  (y % 4 == 0 && y % 100 != 0) || y % 400 == 0

/-- Number of days of month `m` (1-based) of year `y`; models the source's
`new Date(year, m, 0).getDate()`. -/
def daysInMonth (y m : ℕ) : ℕ :=
  if m = 2 then (if isLeap y then 29 else 28)
  else if m = 4 ∨ m = 6 ∨ m = 9 ∨ m = 11 then 30
  else 31

/-- Day-of-year index (1-based) of the first day of month `m`. -/
def monthStart (y m : ℕ) : ℕ :=
  1 + ((List.range (m - 1)).map (fun i => daysInMonth y (i + 1))).sum

/-- Day-of-year index of the last day of month `m`. -/
def monthEnd (y m : ℕ) : ℕ :=
  monthStart y m + daysInMonth y m - 1

/-- The twelve month ranges built at the start of `searchAllCommitsByUser`:
month `m` spans its first through its true last calendar day. -/
def monthRanges (y : ℕ) : List (ℕ × ℕ) :=
  (List.range 12).map (fun i => (monthStart y (i + 1), monthEnd y (i + 1)))

def daysInYear (y : ℕ) : ℕ :=
  if isLeap y then 366 else 365

/-- Models `getDaysInRange(startDate, endDate)`: the inclusive list of
calendar days from `s` to `e` (empty when `e < s`), in day-of-year
representation. -/
def getDaysInRange (s e : ℕ) : List ℕ :=
  List.range' s (e + 1 - s)

/-- Models the week-chunking loop `for (let i = 0; i < days.length; i += 7)`
of `searchAllCommitsByUser`: the chunk starting at index `i` is
`days[i .. min(i+6, days.length-1)]`. -/
def chunk7 : List ℕ → List (List ℕ)
  | [] => []
  | d1 :: d2 :: d3 :: d4 :: d5 :: d6 :: d7 :: rest =>
    [d1, d2, d3, d4, d5, d6, d7] :: chunk7 rest
  | l => [l]

/-! ## Crawler data model -/

structure Commit where
  sha : String
  message : String
  /-- committer date, as UTC milliseconds since the epoch -/
  date : ℕ
  repo : String
  deriving DecidableEq, Repr

/-- The value returned by `searchCommitsInRange`:
`{ commits, totalCount, incomplete }`. -/
structure SearchResult where
  commits : List Commit
  totalCount : ℕ
  incomplete : Bool
  deriving DecidableEq, Repr

/-- An upstream oracle: what `searchCommitsInRange` returns for the date
range `(s, e)`.  The crawler `searchAllCommitsByUser` only observes the
upstream through such calls, so its behaviour is a function of this
oracle. -/
def Upstream : Type :=
  ℕ → ℕ → SearchResult

/-- Week-chunk step of `searchAllCommitsByUser`: query the chunk as one
range; if the result is still truncated with a reported total above 1000,
re-query each calendar day of the chunk individually and take those
results as-is; otherwise take the week result as-is. -/
def crawlWeek (U : Upstream) (week : List ℕ) : List Commit :=
  let ws := week.head?.getD 0
  let we := week.getLast?.getD 0
  let wr := U ws we
  if wr.incomplete ∧ wr.totalCount > 1000 then
    week.flatMap (fun d => (U d d).commits)
  else
    wr.commits

/-- Month step of `searchAllCommitsByUser`: query the whole month; when the
result is truncated with a reported total above 1000, discard the partial
month result and re-crawl the month as ~7-day chunks. -/
def crawlMonth (U : Upstream) (s e : ℕ) : List Commit :=
  let r := U s e
  if r.incomplete ∧ r.totalCount > 1000 then
    (chunk7 (getDaysInRange s e)).flatMap (crawlWeek U)
  else
    r.commits

/-- One step of the sha-dedup loop: append the commits of `cs` that have
not been seen yet (the source keeps a `Set` of seen shas and pushes each
commit the first time its sha appears). -/
def dedupInto (p : List String × List Commit) (cs : List Commit) :
    List String × List Commit :=
  cs.foldl
    (fun q c => if q.1.contains c.sha then q else (c.sha :: q.1, q.2 ++ [c]))
    p

/-- The adaptive crawler `searchAllCommitsByUser`: process the twelve month
ranges of the year in order, bisecting as needed, deduplicating by sha
across all sub-ranges.  Its value is only the deduplicated commit list —
the source returns `allCommits` and nothing else. -/
def searchAllCommitsByUser (U : Upstream) (y : ℕ) : List Commit :=
  ((monthRanges y).foldl (fun p r => dedupInto p (crawlMonth U r.1 r.2)) ([], [])).2

/-- Whether the week-chunk step leaves residual (unresolved) truncation:
either the chunk is re-queried day by day and some day-level result is
itself truncated, or the chunk result is taken as-is while truncated.
This instruments the exact control flow of `crawlWeek`. -/
def crawlWeekResidual (U : Upstream) (week : List ℕ) : Bool :=
  let ws := week.head?.getD 0
  let we := week.getLast?.getD 0
  let wr := U ws we
  if wr.incomplete ∧ wr.totalCount > 1000 then
    week.any (fun d => (U d d).incomplete)
  else
    wr.incomplete

/-- Whether the month step leaves residual truncation, instrumenting the
control flow of `crawlMonth`. -/
def crawlMonthResidual (U : Upstream) (s e : ℕ) : Bool :=
  let r := U s e
  if r.incomplete ∧ r.totalCount > 1000 then
    (chunk7 (getDaysInRange s e)).any (crawlWeekResidual U)
  else
    r.incomplete

/-- A run of the crawler has residual truncation when some sub-range query
whose result was accepted (not bisected further) reported truncation. -/
def residualTruncation (U : Upstream) (y : ℕ) : Bool :=
  (monthRanges y).any (fun r => crawlMonthResidual U r.1 r.2)

/-- Trace of the date ranges passed to `searchCommitsInRange` while a month
is processed, in query order, instrumenting the control flow of
`crawlMonth`. -/
def monthQueries (U : Upstream) (s e : ℕ) : List (ℕ × ℕ) :=
  let r := U s e
  (s, e) ::
    (if r.incomplete ∧ r.totalCount > 1000 then
      (chunk7 (getDaysInRange s e)).flatMap (fun week =>
        let ws := week.head?.getD 0
        let we := week.getLast?.getD 0
        (ws, we) ::
          (if (U ws we).incomplete ∧ (U ws we).totalCount > 1000 then
            week.map (fun d => (d, d))
          else []))
    else [])

/-! ## RangeSearcher (`searchCommitsInRange`)

The pagination loop is modelled over a page oracle: `PageResp` is what the
network delivers for one page request — either an HTTP-level failure
(`err status`, which also stands for a thrown transport error) or a
successful body with its `total_count` and `items`. -/

inductive PageResp where
  | ok (totalCount : ℕ) (items : List Commit)
  | err (status : ℕ)
  deriving DecidableEq, Repr

/-- Body of the `while (true)` pagination loop of `searchCommitsInRange`
(part_004).  The loop runs pages `1, 2, …` and always stops by page 10, so
the `fuel` argument (started at 10, one unit per iteration) never reaches
0 from the initial call; `acc` is the commit list collected so far and
`tc` the last `total_count` seen. -/
def searchLoop (O : ℕ → PageResp) : ℕ → ℕ → List Commit → ℕ → SearchResult
  | 0, _, acc, tc => ⟨acc, tc, false⟩
  | fuel + 1, page, acc, tc =>
    match O page with
    | .err 403 => ⟨acc, tc, true⟩
    | .err 422 => ⟨acc, tc, true⟩
    | .err _ => ⟨acc, tc, false⟩
    | .ok total items =>
      if items = [] then ⟨acc, total, false⟩
      else if 10 ≤ page then ⟨acc ++ items, total, decide (total > 1000)⟩
      else if items.length < 100 then ⟨acc ++ items, total, false⟩
      else searchLoop O fuel (page + 1) (acc ++ items) total

/-- `searchCommitsInRange` for one fixed range, as a function of the page
oracle for that range: paginate from page 1 with an empty accumulator. -/
def searchCommitsInRange (O : ℕ → PageResp) : SearchResult :=
  searchLoop O 10 1 [] 0

/-! ## Classifier (`analyzeCommits`, categorization block) -/

/-- Decides whether `pre` is a prefix of `l` (character lists). -/
def startsWithChars : List Char → List Char → Bool
  | [], _ => true
  | _ :: _, [] => false
  | c :: cs, d :: ds => c = d && startsWithChars cs ds

/-- Decides whether `needle` occurs as a contiguous substring of `hay`;
models JavaScript `String.prototype.includes`. -/
def hasSubChars (needle : List Char) : List Char → Bool
  | [] => startsWithChars needle []
  | d :: ds => startsWithChars needle (d :: ds) || hasSubChars needle ds

/-- Models `msg.includes(kw)`. -/
def jsIncludes (msg kw : String) : Bool :=
  hasSubChars kw.data msg.data

/-- Models `message.toLowerCase()` (adequate for the ASCII keyword tests
performed by the source). -/
def lowerStr (s : String) : String :=
  ⟨s.data.map Char.toLower⟩

def bugKeywords : List String :=
  ["fix", "bug", "issue", "error", "problem", "broken", "failing", "debug",
    "revert", "hotfix", "patch", "crash", "workaround"]

def featureKeywords : List String :=
  ["add", "implement", "create", "new", "feature", "support", "enable",
    "introduce"]

def refactorKeywords : List String :=
  ["refactor", "cleanup", "improve", "optimize", "reorganize", "simplify",
    "restructure", "rename", "move"]

def docsKeywords : List String :=
  ["doc", "readme", "comment", "documentation", "typo", "spelling"]

def testKeywords : List String :=
  ["test", "spec", "coverage", "jest", "mocha", "cypress"]

inductive Category where
  | fix | feature | refactor | docs | test | other
  deriving DecidableEq, Repr

/-- Models `keywords.some(kw => msg.includes(kw))`. -/
def matchesAny (kws : List String) (msg : String) : Bool :=
  kws.any (fun kw => jsIncludes msg kw)

/-- The commit classifier of `analyzeCommits`: lower-case the message,
then test the five keyword lists in order fix → feature → refactor →
docs → test, first match winning, defaulting to `other`. -/
def categorize (message : String) : Category :=
  let msg := lowerStr message
  if matchesAny bugKeywords msg then .fix
  else if matchesAny featureKeywords msg then .feature
  else if matchesAny refactorKeywords msg then .refactor
  else if matchesAny docsKeywords msg then .docs
  else if matchesAny testKeywords msg then .test
  else .other

/-! ## Diurnal buckets and coding style (`analyzeCommits`, time block)

The hourly histogram is the 24-entry array `hourlyActivity`; the buckets
are computed with `slice`/`reduce` exactly as in the source. -/

/-- Models `array.slice(a, b)` on a histogram. -/
def jsSlice (l : List ℕ) (a b : ℕ) : List ℕ :=
  (l.drop a).take (b - a)

/-- Models `array.reduce((a, b) => a + b, 0)`. -/
def sumList (l : List ℕ) : ℕ :=
  l.foldl (· + ·) 0

def nightCommits (h : List ℕ) : ℕ :=
  sumList (jsSlice h 22 24) + sumList (jsSlice h 0 6)

def morningCommits (h : List ℕ) : ℕ :=
  sumList (jsSlice h 6 12)

def afternoonCommits (h : List ℕ) : ℕ :=
  sumList (jsSlice h 12 18)

def eveningCommits (h : List ℕ) : ℕ :=
  sumList (jsSlice h 18 22)

/-- The `codingStyle` decision chain of `analyzeCommits`, verbatim:
`Math.max(a, b, c)` is `max a (max b c)`. -/
def codingStyle (h : List ℕ) : String :=
  if nightCommits h > max (morningCommits h) (max (afternoonCommits h) (eveningCommits h)) then
    "night-owl"
  else if morningCommits h > max (afternoonCommits h) (eveningCommits h) then
    "early-bird"
  else if eveningCommits h > afternoonCommits h then
    "evening-coder"
  else
    "balanced"

/-! ## Streak detection (`analyzeCommits`, streak block)

The source walks `sortedDates` (the lexicographically sorted distinct ISO
dates, i.e. the strictly increasing distinct epoch days) with mutable
`currentStreak` / `longestStreak` / start markers; `diffDays === 1` for
strictly increasing epoch days means the next date is the successor day. -/

structure StreakResult where
  longestStreak : ℕ
  longestStreakStart : Option ℕ
  longestStreakEnd : Option ℕ
  deriving DecidableEq, Repr

/-- The streak loop from its second iteration on: `prev` is the previously
visited date, `cur`/`tempStart` the open streak, `longest`/`lsS`/`lsE` the
best closed streak.  The empty case performs the final
`if (currentStreak > longestStreak)` check of the source. -/
def streakGo (prev cur tempStart longest lsS lsE : ℕ) :
    List ℕ → ℕ × ℕ × ℕ
  | [] => if longest < cur then (cur, tempStart, prev) else (longest, lsS, lsE)
  | d :: rest =>
    if d = prev + 1 then
      streakGo d (cur + 1) tempStart longest lsS lsE rest
    else if longest < cur then
      streakGo d 1 d cur tempStart prev rest
    else
      streakGo d 1 d longest lsS lsE rest

/-- `analyzeCommits`' streak computation on the sorted distinct date list:
`null` start/end exactly when the list is empty. -/
def calcStreaks : List ℕ → StreakResult
  | [] => ⟨0, none, none⟩
  | d :: rest =>
    let r := streakGo d 1 d 0 0 0 rest
    ⟨r.1, some r.2.1, some r.2.2⟩

/-! ## ProjectScorer (`analyzeCommits`, per-repo metrics block) -/

/-- Models `Math.max(1, Math.ceil((lastCommit - firstCommit) / 86400000))`
on millisecond timestamps. -/
def daySpan (first last : ℕ) : ℤ :=
  max 1 ⌈((last : ℚ) - (first : ℚ)) / 86400000⌉

/-- Models `repo.blitzScore = commitsPerActiveDay *
(1 - activeDaysCount / Math.max(daySpan, 1))` where
`commitsPerActiveDay = commitCount / activeDaysCount`. -/
def blitzScore (commitCount activeDays : ℕ) (first last : ℕ) : ℚ :=
  ((commitCount : ℚ) / (activeDays : ℚ)) *
    (1 - (activeDays : ℚ) / ((max (daySpan first last) 1 : ℤ) : ℚ))

/-- UTC calendar day of a millisecond timestamp (the `dateStr` of the
source, in epoch-day representation). -/
def epochDay (ms : ℕ) : ℕ :=
  ms / 86400000

/-- A single project accumulator of the `repoMap` fold, restricted to the
fields the scorer reads. -/
structure Accum where
  commitCount : ℕ
  firstSeen : ℕ
  lastSeen : ℕ
  /-- the `activeDays` set, as its insertion-ordered list of epoch days -/
  activeDays : List ℕ
  deriving DecidableEq, Repr

/-- One iteration of the `repoMap` fold for an existing accumulator. -/
def accumStep (a : Accum) (ts : ℕ) : Accum :=
  { commitCount := a.commitCount + 1
    firstSeen := min a.firstSeen ts
    lastSeen := max a.lastSeen ts
    activeDays :=
      if a.activeDays.contains (epochDay ts) then a.activeDays
      else a.activeDays ++ [epochDay ts] }

/-- The accumulator a project ends with after its commits at timestamps
`ts :: rest` are folded (the first commit creates the accumulator). -/
def accumOf (ts : ℕ) (rest : List ℕ) : Accum :=
  rest.foldl accumStep ⟨1, ts, ts, [epochDay ts]⟩

/-! ## HighlightSelector (`generateWrapped` / `buildRepoHighlights`)

Each selection is `[...list].filter(pred).sort((a, b) => key(b) - key(a))[0]
|| null`.  ECMAScript `Array.prototype.sort` is stable, so the sort is
modelled by a stable descending insertion sort: an element inserted later
(i.e. occurring earlier in the input) precedes an equal-keyed element. -/

structure RepoContribution where
  fullName : String
  commits : ℕ
  fixes : ℕ
  features : ℕ
  problemRatio : ℚ
  blitz : ℚ
  activeDays : ℕ
  deriving DecidableEq, Repr

/-- Stable descending insert: `x` (earlier in the input) goes before the
first element whose key does not exceed `x`'s. -/
def insertDescBy {α β : Type} [LinearOrder β] (key : α → β) (x : α) :
    List α → List α
  | [] => [x]
  | y :: ys => if key y ≤ key x then x :: y :: ys else y :: insertDescBy key x ys

/-- Stable descending sort by `key`; models the stable ECMAScript
`sort((a, b) => key(b) - key(a))`. -/
def sortByDesc {α β : Type} [LinearOrder β] (key : α → β) (l : List α) :
    List α :=
  l.foldr (insertDescBy key) []

/-- `[...l].filter(p).sort(descending by key)[0] || null`. -/
def selectTop {α β : Type} [LinearOrder β] (p : α → Bool) (key : α → β)
    (l : List α) : Option α :=
  (sortByDesc key (l.filter p)).head?

/-- First element of `l` attaining the maximal key (earlier elements win
ties). -/
def firstMaxBy {α β : Type} [LinearOrder β] (key : α → β) :
    List α → Option α
  | [] => none
  | x :: xs =>
    match firstMaxBy key xs with
    | none => some x
    | some y => if key y ≤ key x then some x else some y

def mostActiveRepo (l : List RepoContribution) : Option RepoContribution :=
  l.head?

def mostProblematicRepo (l : List RepoContribution) : Option RepoContribution :=
  selectTop (fun r => 3 < r.fixes) (fun r => r.problemRatio) l

def blitzRepo (l : List RepoContribution) : Option RepoContribution :=
  selectTop (fun r => 10 < r.commits) (fun r => r.blitz) l

def mostFeatureRepo (l : List RepoContribution) : Option RepoContribution :=
  (sortByDesc (fun r => r.features) l).head?

def steadiestRepo (l : List RepoContribution) : Option RepoContribution :=
  selectTop (fun r => 5 < r.activeDays) (fun r => r.activeDays) l

/-! ## The final snapshot (`generateWrapped`)

`generateWrapped` calls `searchAllCommitsByUser`, then derives every
statistics field of the returned object from the resulting `allCommits`
list (plus profile/star/event data from other endpoints, which carries no
truncation information).  The returned object has no `incomplete` field.
`Wrapped` collects the commit-derived fields of that object that this file
embeds; each is a function of `allCommits` alone, exactly as in the
source. -/

def hourOfMs (ms : ℕ) : ℕ :=
  ms / 3600000 % 24

/-- Models `array[i]++` on a histogram list. -/
def bumpAt (l : List ℕ) (i : ℕ) : List ℕ :=
  l.set i (l.getD i 0 + 1)

/-- The `hourlyActivity` histogram built by the `analyzeCommits` fold. -/
def hourlyActivity (cs : List Commit) : List ℕ :=
  cs.foldl (fun h c => bumpAt h (hourOfMs c.date)) (List.replicate 24 0)

/-- Insertion-ordered distinct keys, as produced by a JavaScript `Map`
built by `commitsByDate.set(dateStr, …)`. -/
def dedupKeys (l : List ℕ) : List ℕ :=
  l.foldl (fun ks d => if ks.contains d then ks else ks ++ [d]) []

/-- Stable ascending insert (for the default `Array.prototype.sort()`,
which on ISO date strings is chronological order). -/
def insertAsc (x : ℕ) : List ℕ → List ℕ
  | [] => [x]
  | y :: ys => if x ≤ y then x :: y :: ys else y :: insertAsc x ys

def sortAsc (l : List ℕ) : List ℕ :=
  l.foldr insertAsc []

/-- The `sortedDates` list of `analyzeCommits`: distinct commit days,
sorted. -/
def sortedDatesOf (cs : List Commit) : List ℕ :=
  sortAsc (dedupKeys (cs.map (fun c => epochDay c.date)))

structure Wrapped where
  totalCommits : ℕ
  stylingLabel : String
  streaks : StreakResult
  allCommits : List Commit
  deriving DecidableEq, Repr

/-- The commit-derived part of the snapshot `generateWrapped` returns. -/
def mkWrapped (allCommits : List Commit) : Wrapped :=
  { totalCommits := allCommits.length
    stylingLabel := codingStyle (hourlyActivity allCommits)
    streaks := calcStreaks (sortedDatesOf allCommits)
    allCommits := allCommits }

/-- `generateWrapped`, restricted to its commit-derived snapshot fields:
crawl, then analyze.  Note the crawl hands over only the commit list. -/
def generateWrapped (U : Upstream) (y : ℕ) : Wrapped :=
  mkWrapped (searchAllCommitsByUser U y)

/-- An upstream that finds nothing and reports no truncation anywhere. -/
def cleanUpstream : Upstream :=
  fun _ _ => ⟨[], 0, false⟩

/-- An upstream that reports heavy truncation (`totalCount = 1500`,
`incomplete = true`) for every range while delivering no items — e.g. a
quota-starved run. -/
def starvedUpstream : Upstream :=
  fun _ _ => ⟨[], 1500, true⟩

/-! ## Specification-side helpers for the streak proof

`runLengths` decomposes a walked date list into its maximal blocks of
successive days, as `(start, length)` pairs; `pickBest` is the
first-strictly-greater maximum selection the source's mutable
`longestStreak` bookkeeping performs; `mergePending` folds an open streak
into such a decomposition.  These are proof vehicles relating
`calcStreaks` to the set of consecutive runs present in the input. -/

def runLengths : List ℕ → List (ℕ × ℕ)
  | [] => []
  | d :: rest =>
    match runLengths rest with
    | [] => [(d, 1)]
    | (s, n) :: rs => if s = d + 1 then (d, n + 1) :: rs else (d, 1) :: (s, n) :: rs

def mergePending (tempStart cur prev : ℕ) : List (ℕ × ℕ) → List (ℕ × ℕ)
  | [] => [(tempStart, cur)]
  | (s, n) :: rs =>
    if s = prev + 1 then (tempStart, cur + n) :: rs
    else (tempStart, cur) :: (s, n) :: rs

def pickBest (longest lsS lsE : ℕ) : List (ℕ × ℕ) → ℕ × ℕ × ℕ
  | [] => (longest, lsS, lsE)
  | (s, n) :: rs =>
    if longest < n then pickBest n s (s + n - 1) rs
    else pickBest longest lsS lsE rs

/-- Maximal length of a run in a `runLengths` decomposition. -/
def maxRunLen (rs : List (ℕ × ℕ)) : ℕ :=
  rs.foldr (fun p m => max p.2 m) 0

/-! ## Lemmas about chunking and coverage -/

theorem chunk7_flatten (l : List ℕ) : (chunk7 l).flatten = l := by
  induction l using chunk7.induct with
  | case1 => simp [chunk7]
  | case2 d1 d2 d3 d4 d5 d6 d7 rest ih =>
    rw [chunk7, List.flatten_cons, ih]
    rfl
  | case3 l h1 h2 =>
    rw [chunk7.eq_def]
    split
    · rfl
    · exact absurd rfl (h2 _ _ _ _ _ _ _ _)
    · simp

theorem getDaysInRange_nodup (s e : ℕ) : (getDaysInRange s e).Nodup := by
  unfold getDaysInRange
  exact List.nodup_range' _ _

set_option maxRecDepth 40000 in
/-- C4: the twelve month ranges partition the calendar days of the target
year (month `m` spans the 1st through the true last day of `m`, and their
concatenation is exactly the year's day list, which has no duplicates),
and each bisection step is coverage-preserving: the ~7-day chunks of a
month's day list concatenate back to that day list exactly, and the
individual days queried for a bisected week chunk are exactly the chunk's
own days; hence reassembling all queried sub-ranges reconstructs the full
year with no missing day. -/
theorem month_week_day_coverage (y : ℕ) :
    ((monthRanges y).flatMap (fun r => getDaysInRange r.1 r.2) =
        getDaysInRange 1 (daysInYear y)) ∧
    (getDaysInRange 1 (daysInYear y)).Nodup ∧
    (∀ r ∈ monthRanges y,
      (chunk7 (getDaysInRange r.1 r.2)).flatten = getDaysInRange r.1 r.2) ∧
    (∀ U week, crawlWeek U week =
        (if (U (week.head?.getD 0) (week.getLast?.getD 0)).incomplete ∧
            (U (week.head?.getD 0) (week.getLast?.getD 0)).totalCount > 1000 then
          week.flatMap (fun d => (U d d).commits)
        else (U (week.head?.getD 0) (week.getLast?.getD 0)).commits)) := by
  refine ⟨?_, getDaysInRange_nodup 1 (daysInYear y), fun r _ => chunk7_flatten _,
    fun U week => rfl⟩
  cases h : isLeap y <;>
    simp only [monthRanges, monthStart, monthEnd, daysInMonth, daysInYear, h,
      getDaysInRange] <;> decide

/-- C4 witness at a concrete year and month. -/
theorem month_week_day_coverage_witness :
    ((monthRanges 2025).flatMap (fun r => getDaysInRange r.1 r.2) =
      getDaysInRange 1 (daysInYear 2025)) ∧
    (chunk7 (getDaysInRange 1 31)).flatten = getDaysInRange 1 31 :=
  ⟨(month_week_day_coverage 2025).1,
    (month_week_day_coverage 2025).2.2.1 (1, 31) (by decide)⟩

/-! ## C2: truncation escalation (month → week → day) -/

/-- C2: a month range whose result is truncated with a reported total
above 1000 is re-crawled as ~7-day chunks — its partial result is
discarded: the crawl value is the concatenation of the week-level
crawls, and the week chunks concatenate to the month's day list exactly
once.  A week chunk still truncated with a reported total above 1000 is
split into its individual calendar days, each queried independently with
its result taken as-is (no further splitting).  Concretely, a month
reporting `totalCount = 1500, incomplete = true` whose week sub-queries
are clean and empty yields `[]` — the partial month commit is not
accepted — and the trace of issued queries is the month followed by its
five week chunks. -/
theorem truncation_escalation :
    (∀ (U : Upstream) (s e : ℕ),
      (U s e).incomplete = true → (U s e).totalCount > 1000 →
        crawlMonth U s e = (chunk7 (getDaysInRange s e)).flatMap (crawlWeek U) ∧
        (chunk7 (getDaysInRange s e)).flatten = getDaysInRange s e) ∧
    (∀ (U : Upstream) (week : List ℕ),
      (U (week.head?.getD 0) (week.getLast?.getD 0)).incomplete = true →
      (U (week.head?.getD 0) (week.getLast?.getD 0)).totalCount > 1000 →
        crawlWeek U week = week.flatMap (fun d => (U d d).commits)) ∧
    (∀ (U : Upstream) (s e : ℕ),
      ¬((U s e).incomplete = true ∧ (U s e).totalCount > 1000) →
        crawlMonth U s e = (U s e).commits) ∧
    (crawlMonth
        (fun a b =>
          if a = 1 ∧ b = 31 then ⟨[⟨"sha1", "m", 0, "r"⟩], 1500, true⟩
          else ⟨[], 0, false⟩) 1 31 = [] ∧
      monthQueries
        (fun a b =>
          if a = 1 ∧ b = 31 then ⟨[⟨"sha1", "m", 0, "r"⟩], 1500, true⟩
          else ⟨[], 0, false⟩) 1 31 =
        [(1, 31), (1, 7), (8, 14), (15, 21), (22, 28), (29, 31)]) := by
  refine ⟨fun U s e h1 h2 => ⟨?_, chunk7_flatten _⟩, fun U week h1 h2 => ?_,
    fun U s e h => ?_, by decide⟩
  · rw [crawlMonth, if_pos ⟨h1, h2⟩]
  · rw [crawlWeek, if_pos ⟨h1, h2⟩]
  · rw [crawlMonth, if_neg h]

/-- C2 witness: a synthetic upstream whose January query reports
`totalCount = 1500, incomplete = true`; the crawler bisects and the
partial month result is discarded. -/
theorem truncation_escalation_witness :
    crawlMonth
        (fun a b =>
          if a = 1 ∧ b = 31 then ⟨[⟨"sha1", "m", 0, "r"⟩], 1500, true⟩
          else ⟨[], 0, false⟩) 1 31 =
      (chunk7 (getDaysInRange 1 31)).flatMap
        (crawlWeek
          (fun a b =>
            if a = 1 ∧ b = 31 then ⟨[⟨"sha1", "m", 0, "r"⟩], 1500, true⟩
            else ⟨[], 0, false⟩)) :=
  (truncation_escalation.1
    (fun a b =>
      if a = 1 ∧ b = 31 then ⟨[⟨"sha1", "m", 0, "r"⟩], 1500, true⟩
      else ⟨[], 0, false⟩) 1 31 (by decide) (by decide)).1

/-! ## C3: 403/422 handling in `searchCommitsInRange` -/

/-- C3: when a page request of `searchCommitsInRange` fails with HTTP 403
or HTTP 422, the loop stops immediately, marks the result incomplete, and
returns the commits collected so far (never an exception — the embedding
is a total function into `SearchResult`).  The first part is the loop
invariant form (`acc` is whatever was collected before the failing page);
the last part shows a full page followed by such a failure yields exactly
that page's commits with the incomplete flag set. -/
theorem quota_failure_partial_result :
    (∀ (O : ℕ → PageResp) (fuel page : ℕ) (acc : List Commit) (tc st : ℕ),
      (st = 403 ∨ st = 422) → O page = .err st →
        searchLoop O (fuel + 1) page acc tc = ⟨acc, tc, true⟩) ∧
    (∀ (O : ℕ → PageResp) (st : ℕ),
      (st = 403 ∨ st = 422) → O 1 = .err st →
        searchCommitsInRange O = ⟨[], 0, true⟩) ∧
    (∀ (O : ℕ → PageResp) (total : ℕ) (items : List Commit) (st : ℕ),
      items.length = 100 → (st = 403 ∨ st = 422) →
      O 1 = .ok total items → O 2 = .err st →
        searchCommitsInRange O = ⟨items, total, true⟩) := by
  have base : ∀ (O : ℕ → PageResp) (fuel page : ℕ) (acc : List Commit) (tc st : ℕ),
      (st = 403 ∨ st = 422) → O page = .err st →
      searchLoop O (fuel + 1) page acc tc = ⟨acc, tc, true⟩ := by
    intro O fuel page acc tc st hst hO
    rcases hst with h | h <;> subst h <;> simp [searchLoop, hO]
  refine ⟨base, fun O st hst hO => base O 9 1 [] 0 st hst hO, ?_⟩
  intro O total items st hlen hst h1 h2
  have hne : ¬items = [] := by
    intro h; subst h; simp at hlen
  rw [searchCommitsInRange]
  rw [show (10 : ℕ) = 9 + 1 from rfl, searchLoop, h1]
  simp only [hne, if_false, hlen]
  norm_num
  exact base O 8 2 items total st hst h2

/-- C3 witness: an oracle that fails with HTTP 403 on its first page. -/
theorem quota_failure_partial_result_witness :
    searchCommitsInRange (fun _ => .err 403) = ⟨[], 0, true⟩ :=
  quota_failure_partial_result.2.1 (fun _ => .err 403) 403 (Or.inl rfl) rfl

/-! ## C5: commit classification -/

/-- C5: classification lower-cases the message and tests the five keyword
lists in the fixed priority order fix → feature → refactor → docs → test,
first match winning, with `other` exactly when none matches; the message
"fix and add new feature" is classified `fix`, and the category is a
function of the message alone. -/
theorem classification_priority (m : String) :
    (categorize m = .fix ↔ matchesAny bugKeywords (lowerStr m) = true) ∧
    (categorize m = .feature ↔
      (matchesAny bugKeywords (lowerStr m) = false ∧
        matchesAny featureKeywords (lowerStr m) = true)) ∧
    (categorize m = .refactor ↔
      (matchesAny bugKeywords (lowerStr m) = false ∧
        matchesAny featureKeywords (lowerStr m) = false ∧
        matchesAny refactorKeywords (lowerStr m) = true)) ∧
    (categorize m = .docs ↔
      (matchesAny bugKeywords (lowerStr m) = false ∧
        matchesAny featureKeywords (lowerStr m) = false ∧
        matchesAny refactorKeywords (lowerStr m) = false ∧
        matchesAny docsKeywords (lowerStr m) = true)) ∧
    (categorize m = .test ↔
      (matchesAny bugKeywords (lowerStr m) = false ∧
        matchesAny featureKeywords (lowerStr m) = false ∧
        matchesAny refactorKeywords (lowerStr m) = false ∧
        matchesAny docsKeywords (lowerStr m) = false ∧
        matchesAny testKeywords (lowerStr m) = true)) ∧
    (categorize m = .other ↔
      (matchesAny bugKeywords (lowerStr m) = false ∧
        matchesAny featureKeywords (lowerStr m) = false ∧
        matchesAny refactorKeywords (lowerStr m) = false ∧
        matchesAny docsKeywords (lowerStr m) = false ∧
        matchesAny testKeywords (lowerStr m) = false)) ∧
    (∀ m₂ : String, m = m₂ → categorize m = categorize m₂) ∧
    categorize "fix and add new feature" = .fix := by
  refine ⟨?_, ?_, ?_, ?_, ?_, ?_, fun m₂ h => by rw [h], by decide⟩ <;>
    · unfold categorize
      dsimp only
      split_ifs with h1 h2 h3 h4 h5 <;> simp_all

/-- C5 witness: the priority example. -/
theorem classification_priority_witness :
    categorize "fix and add new feature" = .fix ∧
    matchesAny bugKeywords (lowerStr "fix and add new feature") = true ∧
    matchesAny featureKeywords (lowerStr "fix and add new feature") = true :=
  ⟨(classification_priority "fix and add new feature").1.mpr (by decide),
    by decide, by decide⟩

/-! ## C7 and C10: project metrics -/

theorem one_le_daySpan (first last : ℕ) : 1 ≤ daySpan first last :=
  le_max_left 1 _

/-- C7: for an accumulator with at least one commit (hence at least one
active day), `daySpan` is `max(1, ⌈(lastSeen − firstSeen) in days⌉)`, the
blitz score is `(commitCount / activeDayCount) · (1 − activeDayCount /
daySpan)` (the source's extra `Math.max(daySpan, 1)` is the identity since
`daySpan ≥ 1`), and a project with `activeDayCount = daySpan` has a blitz
score of exactly 0 regardless of commit volume. -/
theorem blitz_metrics (c a first last : ℕ) (hc : 1 ≤ c) (ha : 1 ≤ a)
    (hfl : first ≤ last) :
    daySpan first last = max 1 ⌈((last : ℚ) - (first : ℚ)) / 86400000⌉ ∧
    blitzScore c a first last =
      ((c : ℚ) / (a : ℚ)) *
        (1 - (a : ℚ) / ((daySpan first last : ℤ) : ℚ)) ∧
    ((a : ℤ) = daySpan first last → blitzScore c a first last = 0) := by
  have hmax : max (daySpan first last) 1 = daySpan first last :=
    max_eq_left (one_le_daySpan first last)
  refine ⟨rfl, by rw [blitzScore, hmax], ?_⟩
  intro hEq
  have haQ : (a : ℚ) ≠ 0 := by
    have : a ≠ 0 := by omega
    exact_mod_cast this
  rw [blitzScore, hmax, ← hEq]
  push_cast
  rw [div_self haQ]
  ring

/-- C7 witness: a single-commit, single-day project has
`daySpan = 1 = activeDayCount` and blitz score exactly 0. -/
theorem blitz_metrics_witness :
    blitzScore 5 1 0 0 = 0 :=
  (blitz_metrics 5 1 0 0 (by norm_num) (by norm_num) (by norm_num)).2.2
    (by rw [daySpan]; norm_num)

theorem daySpan_two_commits : daySpan 82800000 90000000 = 1 := by
  rw [daySpan]
  norm_num [Int.ceil_eq_iff]

theorem accumOf_two_commits :
    accumOf 82800000 [90000000] = ⟨2, 82800000, 90000000, [0, 1]⟩ := by
  decide

/-- C10: the blitz score is not bounded below by 0.  Whenever the active
day count exceeds `daySpan` — possible because `daySpan` is the ceiling of
the raw timestamp difference, so two commits on distinct calendar days
less than 24 hours apart give `daySpan = 1` with 2 active days — a
project with at least one commit gets a strictly negative blitz score.
The closed conjuncts run the accumulator fold on two such commits
(1970-01-01T23:00Z and 1970-01-02T01:00Z) and show the resulting score is
exactly −1. -/
theorem blitz_negative (c a first last : ℕ) (hc : 1 ≤ c) (hfl : first ≤ last)
    (hgt : daySpan first last < (a : ℤ)) :
    blitzScore c a first last < 0 ∧
    (accumOf 82800000 [90000000]).activeDays.length = 2 ∧
    daySpan (accumOf 82800000 [90000000]).firstSeen
      (accumOf 82800000 [90000000]).lastSeen = 1 ∧
    blitzScore (accumOf 82800000 [90000000]).commitCount
      (accumOf 82800000 [90000000]).activeDays.length
      (accumOf 82800000 [90000000]).firstSeen
      (accumOf 82800000 [90000000]).lastSeen = -1 := by
  refine ⟨?_, by rw [accumOf_two_commits]; rfl, ?_, ?_⟩
  case refine_2 =>
    rw [accumOf_two_commits]
    exact daySpan_two_commits
  case refine_3 =>
    rw [accumOf_two_commits]
    show blitzScore 2 2 82800000 90000000 = -1
    rw [blitzScore, daySpan_two_commits]
    norm_num
  have hd1 : (1 : ℤ) ≤ daySpan first last := one_le_daySpan first last
  have hmax : max (daySpan first last) 1 = daySpan first last := max_eq_left hd1
  rw [blitzScore, hmax]
  have hdQ : (0 : ℚ) < ((daySpan first last : ℤ) : ℚ) := by
    exact_mod_cast lt_of_lt_of_le one_pos hd1
  have haQ : (0 : ℚ) < (a : ℚ) := by
    have : (0 : ℤ) < (a : ℤ) := lt_of_le_of_lt (by positivity) hgt
    exact_mod_cast this
  have hcQ : (0 : ℚ) < (c : ℚ) := by
    exact_mod_cast lt_of_lt_of_le one_pos (by exact_mod_cast hc)
  apply mul_neg_of_pos_of_neg
  · positivity
  · have hlt : ((daySpan first last : ℤ) : ℚ) < (a : ℚ) := by
      exact_mod_cast hgt
    have : (1 : ℚ) < (a : ℚ) / ((daySpan first last : ℤ) : ℚ) :=
      (one_lt_div hdQ).mpr hlt
    linarith

/-- C10 witness: the two-commit accumulator instance. -/
theorem blitz_negative_witness :
    blitzScore 2 2 82800000 90000000 < 0 :=
  (blitz_negative 2 2 82800000 90000000 (by norm_num) (by norm_num)
    (by rw [daySpan_two_commits]; norm_num)).1

/-! ## C8: diurnal buckets and the `codingStyle` label

The claimed rule — each label requires its bucket to be a strict maximum
over the other three, `balanced` whenever no bucket strictly dominates —
does not match the code: the `early-bird` branch compares `morningCommits`
only against `afternoonCommits` and `eveningCommits` (never against
`nightCommits`), and the `evening-coder` branch compares only against
`afternoonCommits`. -/

/-- C8 counterexample: a histogram with one commit at hour 0 (night) and
one at hour 6 (morning).  No bucket strictly dominates the other three
(night and morning tie at 1), so under the claimed rule the label would be
`balanced`; the code labels it `early-bird`. -/
theorem codingStyle_not_strict_max :
    codingStyle (bumpAt (bumpAt (List.replicate 24 0) 0) 6) = "early-bird" ∧
    nightCommits (bumpAt (bumpAt (List.replicate 24 0) 0) 6) = 1 ∧
    morningCommits (bumpAt (bumpAt (List.replicate 24 0) 0) 6) = 1 ∧
    afternoonCommits (bumpAt (bumpAt (List.replicate 24 0) 0) 6) = 0 ∧
    eveningCommits (bumpAt (bumpAt (List.replicate 24 0) 0) 6) = 0 ∧
    ¬(nightCommits (bumpAt (bumpAt (List.replicate 24 0) 0) 6) <
        morningCommits (bumpAt (bumpAt (List.replicate 24 0) 0) 6)) ∧
    codingStyle (bumpAt (bumpAt (List.replicate 24 0) 0) 6) ≠ "balanced" := by
  decide

/-- C8 (amended): the diurnal buckets are the claimed hour ranges
(night 22–23 and 0–5, morning 6–11, afternoon 12–17, evening 18–21), and
the label is decided by the if-chain: `night-owl` iff night strictly
exceeds the other three buckets; otherwise `early-bird` iff morning
strictly exceeds afternoon and evening (night is not consulted);
otherwise `evening-coder` iff evening strictly exceeds afternoon (night
and morning are not consulted); otherwise `balanced`. -/
theorem codingStyle_chain
    (a0 a1 a2 a3 a4 a5 a6 a7 a8 a9 a10 a11 a12 a13 a14 a15 a16 a17 a18 a19
      a20 a21 a22 a23 : ℕ) :
    (nightCommits [a0, a1, a2, a3, a4, a5, a6, a7, a8, a9, a10, a11, a12,
        a13, a14, a15, a16, a17, a18, a19, a20, a21, a22, a23] =
      a22 + a23 + (a0 + a1 + a2 + a3 + a4 + a5)) ∧
    (morningCommits [a0, a1, a2, a3, a4, a5, a6, a7, a8, a9, a10, a11, a12,
        a13, a14, a15, a16, a17, a18, a19, a20, a21, a22, a23] =
      a6 + a7 + a8 + a9 + a10 + a11) ∧
    (afternoonCommits [a0, a1, a2, a3, a4, a5, a6, a7, a8, a9, a10, a11,
        a12, a13, a14, a15, a16, a17, a18, a19, a20, a21, a22, a23] =
      a12 + a13 + a14 + a15 + a16 + a17) ∧
    (eveningCommits [a0, a1, a2, a3, a4, a5, a6, a7, a8, a9, a10, a11, a12,
        a13, a14, a15, a16, a17, a18, a19, a20, a21, a22, a23] =
      a18 + a19 + a20 + a21) ∧
    (∀ h : List ℕ,
      (codingStyle h = "night-owl" ↔
        morningCommits h < nightCommits h ∧
        afternoonCommits h < nightCommits h ∧
        eveningCommits h < nightCommits h) ∧
      (codingStyle h = "early-bird" ↔
        ¬(morningCommits h < nightCommits h ∧
          afternoonCommits h < nightCommits h ∧
          eveningCommits h < nightCommits h) ∧
        afternoonCommits h < morningCommits h ∧
        eveningCommits h < morningCommits h) ∧
      (codingStyle h = "evening-coder" ↔
        ¬(morningCommits h < nightCommits h ∧
          afternoonCommits h < nightCommits h ∧
          eveningCommits h < nightCommits h) ∧
        ¬(afternoonCommits h < morningCommits h ∧
          eveningCommits h < morningCommits h) ∧
        afternoonCommits h < eveningCommits h) ∧
      (codingStyle h = "balanced" ↔
        ¬(morningCommits h < nightCommits h ∧
          afternoonCommits h < nightCommits h ∧
          eveningCommits h < nightCommits h) ∧
        ¬(afternoonCommits h < morningCommits h ∧
          eveningCommits h < morningCommits h) ∧
        ¬(afternoonCommits h < eveningCommits h))) := by
  refine ⟨?_, ?_, ?_, ?_, ?_⟩
  · simp [nightCommits, jsSlice, sumList]
    try omega
  · simp [morningCommits, jsSlice, sumList]
    try omega
  · simp [afternoonCommits, jsSlice, sumList]
    try omega
  · simp [eveningCommits, jsSlice, sumList]
    try omega
  intro h
  refine ⟨?_, ?_, ?_, ?_⟩ <;>
    · rw [codingStyle]
      split_ifs with h1 h2 h3 <;>
        simp_all [Nat.max_lt, gt_iff_lt]

/-! ## C9: highlight selection — stable-sort head and thresholds -/

theorem head_insertDescBy {α β : Type} [LinearOrder β] (key : α → β) (x : α)
    (l : List α) :
    (insertDescBy key x l).head? =
      match l.head? with
      | none => some x
      | some y => if key y ≤ key x then some x else some y := by
  cases l with
  | nil => rfl
  | cons y ys =>
    rw [insertDescBy]
    simp only [List.head?_cons]
    split_ifs with h <;> rfl

/-- The head of the stable descending sort is the first element of the
input attaining the maximal key — this is exactly how a stable
`sort((a, b) => key(b) - key(a))[0]` breaks ties: first encountered
wins. -/
theorem head_sortByDesc {α β : Type} [LinearOrder β] (key : α → β)
    (l : List α) :
    (sortByDesc key l).head? = firstMaxBy key l := by
  induction l with
  | nil => rfl
  | cons x xs ih =>
    show (insertDescBy key x (sortByDesc key xs)).head? = _
    rw [head_insertDescBy, firstMaxBy, ← ih]
    all_goals cases (sortByDesc key xs).head? <;> rfl

theorem firstMaxBy_cons_isSome {α β : Type} [LinearOrder β] (key : α → β)
    (x : α) (xs : List α) : ∃ r, firstMaxBy key (x :: xs) = some r := by
  rw [firstMaxBy]
  cases firstMaxBy key xs with
  | none => exact ⟨x, rfl⟩
  | some y =>
    dsimp only
    split_ifs with h
    · exact ⟨x, rfl⟩
    · exact ⟨y, rfl⟩

theorem firstMaxBy_mem {α β : Type} [LinearOrder β] (key : α → β)
    (l : List α) (r : α) : firstMaxBy key l = some r → r ∈ l := by
  induction l generalizing r with
  | nil => intro h; simp [firstMaxBy] at h
  | cons x xs ih =>
    rw [firstMaxBy]
    cases hxs : firstMaxBy key xs with
    | none =>
      intro h
      dsimp only at h
      simp only [Option.some.injEq] at h
      simp [← h]
    | some y =>
      intro h
      dsimp only at h
      split_ifs at h <;> simp only [Option.some.injEq] at h
      · simp [← h]
      · exact List.mem_cons_of_mem x (ih r (h ▸ hxs))

theorem firstMaxBy_isMax {α β : Type} [LinearOrder β] (key : α → β)
    (l : List α) (r : α) :
    firstMaxBy key l = some r → ∀ x ∈ l, key x ≤ key r := by
  induction l generalizing r with
  | nil => intro h; simp [firstMaxBy] at h
  | cons x xs ih =>
    rw [firstMaxBy]
    cases hxs : firstMaxBy key xs with
    | none =>
      intro h
      dsimp only at h
      simp only [Option.some.injEq] at h
      subst h
      intro z hz
      rcases List.mem_cons.mp hz with hz | hz
      · exact hz ▸ le_refl _
      · cases xs with
        | nil => simp at hz
        | cons w ws =>
          obtain ⟨q, hq⟩ := firstMaxBy_cons_isSome key w ws
          rw [hq] at hxs
          exact absurd hxs (by simp)
    | some y =>
      intro h
      dsimp only at h
      split_ifs at h with hk <;> simp only [Option.some.injEq] at h
      · subst h
        intro z hz
        rcases List.mem_cons.mp hz with hz | hz
        · exact hz ▸ le_refl _
        · exact le_trans (ih y hxs z hz) hk
      · subst h
        intro z hz
        rcases List.mem_cons.mp hz with hz | hz
        · exact hz ▸ le_of_not_le hk
        · exact ih _ hxs z hz

/-- C9: highlight selection is threshold-gated with strict inequalities
and stable-order tie-breaking.  A repo selected "most problematic" always
has `fixes > 3` (so exactly 3 fixes is never selected), a "blitz" repo
always has `commits > 10` (so exactly 10 is never eligible), a
"steadiest" repo always has `activeDays > 5`; each selection equals the
first eligible element attaining the maximal ranking key (stable input
order breaks ties), every selected repo bounds the key of all eligible
repos, and a category with no eligible repo yields `none`. -/
theorem highlight_thresholds (l : List RepoContribution)
    (r : RepoContribution) :
    (mostProblematicRepo l = some r → 3 < r.fixes) ∧
    (r.fixes = 3 → mostProblematicRepo l ≠ some r) ∧
    (blitzRepo l = some r → 10 < r.commits) ∧
    (r.commits = 10 → blitzRepo l ≠ some r) ∧
    (steadiestRepo l = some r → 5 < r.activeDays) ∧
    (mostProblematicRepo l =
      firstMaxBy (fun x => x.problemRatio) (l.filter (fun x => 3 < x.fixes))) ∧
    (blitzRepo l =
      firstMaxBy (fun x => x.blitz) (l.filter (fun x => 10 < x.commits))) ∧
    (steadiestRepo l =
      firstMaxBy (fun x => x.activeDays) (l.filter (fun x => 5 < x.activeDays))) ∧
    (mostProblematicRepo l = some r →
      ∀ x ∈ l, 3 < x.fixes → x.problemRatio ≤ r.problemRatio) ∧
    (blitzRepo l = some r → ∀ x ∈ l, 10 < x.commits → x.blitz ≤ r.blitz) ∧
    (l.filter (fun x => 3 < x.fixes) = [] → mostProblematicRepo l = none) ∧
    (l.filter (fun x => 10 < x.commits) = [] → blitzRepo l = none) ∧
    (l.filter (fun x => 5 < x.activeDays) = [] → steadiestRepo l = none) := by
  have hchar : ∀ (p : RepoContribution → Bool)
      (key : RepoContribution → ℚ),
      selectTop p key l = firstMaxBy key (l.filter p) :=
    fun p key => head_sortByDesc key (l.filter p)
  have hcharN : ∀ (p : RepoContribution → Bool)
      (key : RepoContribution → ℕ),
      selectTop p key l = firstMaxBy key (l.filter p) :=
    fun p key => head_sortByDesc key (l.filter p)
  have hmemP : mostProblematicRepo l = some r → r ∈ l ∧ 3 < r.fixes := by
    intro h
    rw [mostProblematicRepo, hchar] at h
    have := firstMaxBy_mem _ _ _ h
    have hf := List.of_mem_filter this
    exact ⟨List.mem_of_mem_filter this, by simpa using hf⟩
  have hmemB : blitzRepo l = some r → r ∈ l ∧ 10 < r.commits := by
    intro h
    rw [blitzRepo, hchar] at h
    have := firstMaxBy_mem _ _ _ h
    have hf := List.of_mem_filter this
    exact ⟨List.mem_of_mem_filter this, by simpa using hf⟩
  have hmemS : steadiestRepo l = some r → r ∈ l ∧ 5 < r.activeDays := by
    intro h
    rw [steadiestRepo, hcharN] at h
    have := firstMaxBy_mem _ _ _ h
    have hf := List.of_mem_filter this
    exact ⟨List.mem_of_mem_filter this, by simpa using hf⟩
  refine ⟨fun h => (hmemP h).2, ?_, fun h => (hmemB h).2, ?_,
    fun h => (hmemS h).2, hchar _ _, hchar _ _, hcharN _ _, ?_, ?_, ?_, ?_, ?_⟩
  · intro h3 hsel
    exact absurd ((hmemP hsel).2) (by omega)
  · intro h10 hsel
    exact absurd ((hmemB hsel).2) (by omega)
  · intro hsel x hx hfix
    rw [mostProblematicRepo, hchar] at hsel
    exact firstMaxBy_isMax _ _ _ hsel x (List.mem_filter.mpr ⟨hx, by simpa⟩)
  · intro hsel x hx hcomm
    rw [blitzRepo, hchar] at hsel
    exact firstMaxBy_isMax _ _ _ hsel x (List.mem_filter.mpr ⟨hx, by simpa⟩)
  · intro hf
    rw [mostProblematicRepo, hchar, hf]
    rfl
  · intro hf
    rw [blitzRepo, hchar, hf]
    rfl
  · intro hf
    rw [steadiestRepo, hcharN, hf]
    rfl

/-- C9 witness: a repo with exactly 3 fixes and exactly 10 commits is
never selected for the strict-threshold categories, and an empty
contribution list yields `none` rather than an error. -/
theorem highlight_thresholds_witness :
    mostProblematicRepo [⟨"a", 10, 3, 0, 0, 0, 2⟩] ≠
      some ⟨"a", 10, 3, 0, 0, 0, 2⟩ ∧
    blitzRepo [⟨"a", 10, 3, 0, 0, 0, 2⟩] ≠ some ⟨"a", 10, 3, 0, 0, 0, 2⟩ ∧
    blitzRepo [] = none :=
  ⟨(highlight_thresholds [⟨"a", 10, 3, 0, 0, 0, 2⟩]
      ⟨"a", 10, 3, 0, 0, 0, 2⟩).2.1 rfl,
    (highlight_thresholds [⟨"a", 10, 3, 0, 0, 0, 2⟩]
      ⟨"a", 10, 3, 0, 0, 0, 2⟩).2.2.2.1 rfl,
    (highlight_thresholds [] ⟨"a", 10, 3, 0, 0, 0, 2⟩).2.2.2.2.2.2.2.2.2.2.2.1
      rfl⟩

/-! ## C1: the `incomplete` flag on the final snapshot

The crawler returns only the deduplicated commit list, and every snapshot
field `generateWrapped` derives from the crawl is a function of that list;
no `incomplete` flag exists on the snapshot and residual truncation is not
surfaced.  The counterexample exhibits two upstreams — one whose every
query reports unresolved truncation at every granularity, one fully
clean — that produce identical snapshots. -/

theorem crawlMonth_eq_nil (U : Upstream)
    (h : ∀ s e, (U s e).commits = []) (s e : ℕ) :
    crawlMonth U s e = [] := by
  rw [crawlMonth]
  split_ifs with hb
  · rw [List.flatMap_eq_nil_iff]
    intro w hw
    rw [crawlWeek]
    split_ifs with hw2
    · rw [List.flatMap_eq_nil_iff]
      intro d hd
      exact h d d
    · exact h _ _
  · exact h s e

theorem searchAll_eq_nil (U : Upstream)
    (h : ∀ s e, (U s e).commits = []) (y : ℕ) :
    searchAllCommitsByUser U y = [] := by
  rw [searchAllCommitsByUser]
  have : ∀ (L : List (ℕ × ℕ)) (p : List String × List Commit),
      L.foldl (fun p r => dedupInto p (crawlMonth U r.1 r.2)) p = p := by
    intro L
    induction L with
    | nil => intro p; rfl
    | cons r rs ih =>
      intro p
      rw [List.foldl_cons, crawlMonth_eq_nil U h]
      exact ih p
  rw [this]

/-- C1 counterexample: a quota-starved run in which every sub-range query
— down to individual days — reports truncation it cannot resolve
(`residualTruncation = true`) produces a snapshot identical to that of a
fully clean run (`residualTruncation = false`).  The snapshot therefore
carries no `incomplete` flag reflecting residual truncation: `generateWrapped`
returns no such field and the claimed property is false. -/
theorem no_incomplete_flag_on_snapshot :
    generateWrapped starvedUpstream 2025 = generateWrapped cleanUpstream 2025 ∧
    residualTruncation starvedUpstream 2025 = true ∧
    residualTruncation cleanUpstream 2025 = false := by
  refine ⟨?_, by decide, by decide⟩
  rw [generateWrapped, generateWrapped,
    searchAll_eq_nil starvedUpstream (fun _ _ => rfl) 2025,
    searchAll_eq_nil cleanUpstream (fun _ _ => rfl) 2025]

/-- C1 (amended): the crawl result and hence the snapshot carry no
incompleteness information at all — whenever the upstream delivers no
commits, whatever truncation it reports, the crawler returns `[]` and the
snapshot equals the clean-run snapshot.  Residual truncation is silently
dropped rather than surfaced. -/
theorem snapshot_ignores_truncation (U : Upstream) (y : ℕ)
    (h : ∀ s e, (U s e).commits = []) :
    searchAllCommitsByUser U y = [] ∧
    generateWrapped U y = generateWrapped cleanUpstream y := by
  refine ⟨searchAll_eq_nil U h y, ?_⟩
  rw [generateWrapped, generateWrapped, searchAll_eq_nil U h y,
    searchAll_eq_nil cleanUpstream (fun _ _ => rfl) y]

/-! ## C6: streak detection

The proof relates the source's single-pass mutable-state loop
(`streakGo`/`calcStreaks`) to the run decomposition `runLengths` and the
first-strict-maximum selection `pickBest`, then proves soundness (the
recorded streak's days are all present) and maximality (no longer block of
consecutive days exists in the input). -/

theorem runLengths_cons (d : ℕ) (r : List ℕ) :
    ∃ k tl, runLengths (d :: r) = (d, k) :: tl ∧ 1 ≤ k := by
  rw [runLengths]
  cases hr : runLengths r with
  | nil => exact ⟨1, [], rfl, le_refl 1⟩
  | cons p rs =>
    obtain ⟨s, n⟩ := p
    dsimp only
    split_ifs with h
    · exact ⟨n + 1, rs, rfl, by omega⟩
    · exact ⟨1, (s, n) :: rs, rfl, le_refl 1⟩

theorem mergePending_notadj (t c prev d : ℕ) (r : List ℕ)
    (h : ¬d = prev + 1) :
    mergePending t c prev (runLengths (d :: r)) =
      (t, c) :: runLengths (d :: r) := by
  obtain ⟨k, tl, heq, -⟩ := runLengths_cons d r
  rw [heq, mergePending, if_neg h]

theorem mergePending_adj (t c prev d : ℕ) (r : List ℕ) (h : d = prev + 1) :
    mergePending t c prev (runLengths (d :: r)) =
      mergePending t (c + 1) d (runLengths r) := by
  rw [runLengths]
  cases hr : runLengths r with
  | nil =>
    dsimp only
    simp only [mergePending]
    rw [if_pos h]
  | cons p rs =>
    obtain ⟨s, n⟩ := p
    dsimp only
    split_ifs with hadj
    · simp only [mergePending]
      rw [if_pos h, if_pos hadj]
      have harith : c + (n + 1) = c + 1 + n := by omega
      rw [harith]
    · simp only [mergePending]
      rw [if_pos h, if_neg hadj]

theorem mergePending_self (d : ℕ) (r : List ℕ) :
    mergePending d 1 d (runLengths r) = runLengths (d :: r) := by
  rw [runLengths]
  cases hr : runLengths r with
  | nil => rfl
  | cons p rs =>
    obtain ⟨s, n⟩ := p
    dsimp only
    split_ifs with hadj
    · rw [mergePending, if_pos hadj]
      have harith : 1 + n = n + 1 := by omega
      rw [harith]
    · rw [mergePending, if_neg hadj]

/-- The streak loop is the first-strict-maximum selection over the run
decomposition, with the open streak folded in. -/
theorem streakGo_eq_pickBest (rest : List ℕ) :
    ∀ prev cur t longest lsS lsE, prev = t + cur - 1 → 1 ≤ cur →
      streakGo prev cur t longest lsS lsE rest =
        pickBest longest lsS lsE (mergePending t cur prev (runLengths rest)) := by
  induction rest with
  | nil =>
    intro prev cur t longest lsS lsE hprev hcur
    rw [streakGo, runLengths, mergePending, pickBest]
    split_ifs with h
    · rw [pickBest]
      subst hprev
      rfl
    · rw [pickBest]
  | cons d rest ih =>
    intro prev cur t longest lsS lsE hprev hcur
    rw [streakGo]
    split_ifs with hadj hlt
    · rw [ih d (cur + 1) t longest lsS lsE (by omega) (by omega),
        mergePending_adj t cur prev d rest hadj]
    · rw [ih d 1 d cur t prev (by omega) (by omega),
        mergePending_self d rest, mergePending_notadj t cur prev d rest hadj,
        pickBest, if_pos hlt, hprev]
    · rw [ih d 1 d longest lsS lsE (by omega) (by omega),
        mergePending_self d rest, mergePending_notadj t cur prev d rest hadj,
        pickBest, if_neg hlt]

theorem maxRunLen_cons (p : ℕ × ℕ) (rs : List (ℕ × ℕ)) :
    maxRunLen (p :: rs) = max p.2 (maxRunLen rs) := rfl

theorem pickBest_const (rs : List (ℕ × ℕ)) :
    ∀ L a b, maxRunLen rs ≤ L → pickBest L a b rs = (L, a, b) := by
  induction rs with
  | nil => intro L a b h; rfl
  | cons p rs ih =>
    intro L a b h
    obtain ⟨s, n⟩ := p
    rw [maxRunLen_cons] at h
    rw [pickBest, if_neg (by omega)]
    exact ih L a b (by omega)

theorem pickBest_achieved (rs : List (ℕ × ℕ)) :
    ∀ L a b, L < maxRunLen rs →
      ∃ p ∈ rs, pickBest L a b rs = (p.2, p.1, p.1 + p.2 - 1) ∧
        p.2 = maxRunLen rs := by
  induction rs with
  | nil => intro L a b h; simp [maxRunLen] at h
  | cons p rs ih =>
    intro L a b h
    obtain ⟨s, n⟩ := p
    rw [maxRunLen_cons] at h
    by_cases hln : L < n
    · rw [pickBest, if_pos hln]
      by_cases hrec : maxRunLen rs ≤ n
      · refine ⟨(s, n), List.mem_cons_self _ _, ?_, ?_⟩
        · exact pickBest_const rs n s (s + n - 1) hrec
        · simp only [maxRunLen_cons]
          omega
      · obtain ⟨q, hq, hpick, hmax⟩ := ih n s (s + n - 1) (by omega)
        refine ⟨q, List.mem_cons_of_mem _ hq, hpick, ?_⟩
        simp only [maxRunLen_cons]
        omega
    · rw [pickBest, if_neg hln]
      obtain ⟨q, hq, hpick, hmax⟩ := ih L a b (by omega)
      refine ⟨q, List.mem_cons_of_mem _ hq, hpick, ?_⟩
      simp only [maxRunLen_cons]
      omega

/-- Every run recorded by `runLengths` consists of days actually present
in the walked list. -/
theorem runLengths_sound (l : List ℕ) :
    ∀ p ∈ runLengths l, ∀ k < p.2, p.1 + k ∈ l := by
  induction l with
  | nil => simp [runLengths]
  | cons d r ih =>
    intro p hp k hk
    rw [runLengths] at hp
    revert hp
    cases hr : runLengths r with
    | nil =>
      intro hp
      simp only [List.mem_singleton] at hp
      subst hp
      have : k = 0 := by omega
      subst this
      exact List.mem_cons_self _ _
    | cons q rs =>
      obtain ⟨s, n⟩ := q
      dsimp only
      split_ifs with hadj
      · intro hp
        rcases List.mem_cons.mp hp with hp | hp
        · subst hp
          simp only at hk
          rcases Nat.eq_zero_or_pos k with hk0 | hkpos
          · subst hk0
            exact List.mem_cons_self _ _
          · have hmem : (s, n) ∈ runLengths r := by
              rw [hr]; exact List.mem_cons_self _ _
            have := ih (s, n) hmem (k - 1) (by simp only; omega)
            have harg : s + (k - 1) = d + k := by omega
            rw [harg] at this
            exact List.mem_cons_of_mem d this
        · have hmem : p ∈ runLengths r := by
            rw [hr]; exact List.mem_cons_of_mem _ hp
          exact List.mem_cons_of_mem d (ih p hmem k hk)
      · intro hp
        rcases List.mem_cons.mp hp with hp | hp
        · subst hp
          have : k = 0 := by omega
          subst this
          exact List.mem_cons_self _ _
        · have hmem : p ∈ runLengths r := by rw [hr]; exact hp
          exact List.mem_cons_of_mem d (ih p hmem k hk)

theorem maxRunLen_tail_le (d : ℕ) (r : List ℕ) :
    maxRunLen (runLengths r) ≤ maxRunLen (runLengths (d :: r)) := by
  rw [runLengths]
  cases hr : runLengths r with
  | nil =>
    dsimp only
    simp [maxRunLen]
  | cons q rs =>
    obtain ⟨s, n⟩ := q
    dsimp only
    split_ifs with hadj <;> simp only [maxRunLen_cons] <;> omega

/-- If `n` consecutive days starting at the head are all present in a
strictly increasing list, the first recorded run has length at least
`n`. -/
theorem firstRun_ge (r : List ℕ) :
    ∀ d n k tl, (d :: r).Pairwise (· < ·) → (∀ j < n, d + j ∈ d :: r) →
      runLengths (d :: r) = (d, k) :: tl → n ≤ k := by
  induction r with
  | nil =>
    intro d n k tl hpair hmem heq
    have heq1 : runLengths [d] = [(d, 1)] := rfl
    rw [heq1] at heq
    simp only [List.cons.injEq, Prod.mk.injEq] at heq
    by_contra hcon
    push_neg at hcon
    have h1 : d + 1 ∈ [d] := hmem 1 (by omega)
    simp at h1
  | cons y r' ih =>
    intro d n k tl hpair hmem heq
    by_cases hn1 : n ≤ 1
    · obtain ⟨k', tl', heq', hk'⟩ := runLengths_cons d (y :: r')
      rw [heq'] at heq
      simp only [List.cons.injEq, Prod.mk.injEq] at heq
      omega
    · push_neg at hn1
      have hd1 : d + 1 ∈ d :: y :: r' := hmem 1 (by omega)
      have hpc := List.pairwise_cons.mp hpair
      have hdy : d < y := hpc.1 y (List.mem_cons_self _ _)
      have hpc2 := List.pairwise_cons.mp hpc.2
      have hy : y = d + 1 := by
        rcases List.mem_cons.mp hd1 with h | h
        · omega
        · rcases List.mem_cons.mp h with h | h
          · omega
          · have := hpc2.1 _ h
            omega
      obtain ⟨k2, tl2, heq2, hk2⟩ := runLengths_cons y r'
      have hrun : runLengths (d :: y :: r') = (d, k2 + 1) :: tl2 := by
        rw [runLengths, heq2]
        dsimp only
        rw [if_pos (by omega)]
      rw [hrun] at heq
      simp only [List.cons.injEq, Prod.mk.injEq] at heq
      have hmem2 : ∀ j < n - 1, y + j ∈ y :: r' := by
        intro j hj
        have := hmem (j + 1) (by omega)
        have harg : d + (j + 1) = y + j := by omega
        rw [harg] at this
        rcases List.mem_cons.mp this with h | h
        · omega
        · exact h
      have := ih y (n - 1) k2 tl2 hpc.2 hmem2 heq2
      omega

/-- Any block of `n` consecutive days present in a strictly increasing
list is contained in some recorded run: `n` is bounded by the maximal run
length. -/
theorem maxRun_bound (l : List ℕ) :
    ∀ n e, l.Pairwise (· < ·) → (∀ k < n, e + k ∈ l) →
      n ≤ maxRunLen (runLengths l) := by
  induction l with
  | nil =>
    intro n e _ hmem
    by_contra hcon
    push_neg at hcon
    have := hmem 0 (by omega)
    simp at this
  | cons x xs ih =>
    intro n e hpair hmem
    rcases Nat.eq_zero_or_pos n with hn0 | hnpos
    · omega
    · have he : e ∈ x :: xs := by
        have := hmem 0 hnpos
        simpa using this
      by_cases hex : e = x
      · subst hex
        obtain ⟨k, tl, heq, hk⟩ := runLengths_cons e xs
        have := firstRun_ge xs e n k tl hpair hmem heq
        rw [heq, maxRunLen_cons]
        simp only
        omega
      · have hxs : ∀ k < n, e + k ∈ xs := by
          intro k hk
          have hmem' := hmem k hk
          have hpc := List.pairwise_cons.mp hpair
          have hein : e ∈ xs := by
            rcases List.mem_cons.mp he with h | h
            · exact absurd h hex
            · exact h
          have hxe : x < e := hpc.1 e hein
          rcases List.mem_cons.mp hmem' with h | h
          · omega
          · exact h
        have := ih n e (List.pairwise_cons.mp hpair).2 hxs
        exact le_trans this (maxRunLen_tail_le x xs)

/-- C6: on the sorted list of distinct commit days, the streak loop walks
the dates, extending on successor days and restarting at length 1 on any
larger gap, and returns the longest closed-or-still-open streak together
with its start and end day (`end = start + length − 1`): every day of the
recorded streak carries a commit, and no longer block of consecutive
commit days exists.  In particular the dates {2025-01-01, 2025-01-02,
2025-01-03, 2025-01-10} (epoch days 20089, 20090, 20091, 20098) give a
longest streak of 3 spanning 2025-01-01 through 2025-01-03. -/
theorem streak_correct :
    (∀ l : List ℕ, l.Chain' (· < ·) → l ≠ [] →
      ∃ d : ℕ,
        (calcStreaks l).longestStreakStart = some d ∧
        (calcStreaks l).longestStreakEnd =
          some (d + (calcStreaks l).longestStreak - 1) ∧
        1 ≤ (calcStreaks l).longestStreak ∧
        (∀ k < (calcStreaks l).longestStreak, d + k ∈ l) ∧
        (∀ n e, (∀ k < n, e + k ∈ l) → n ≤ (calcStreaks l).longestStreak)) ∧
    calcStreaks [20089, 20090, 20091, 20098] =
      ⟨3, some 20089, some 20091⟩ := by
  constructor
  · intro l hchain hne
    obtain ⟨d0, rest, rfl⟩ : ∃ d0 rest, l = d0 :: rest := by
      cases l with
      | nil => exact absurd rfl hne
      | cons a b => exact ⟨a, b, rfl⟩
    have hpair : (d0 :: rest).Pairwise (· < ·) :=
      List.chain'_iff_pairwise.mp hchain
    have hcalc : calcStreaks (d0 :: rest) =
        ⟨(pickBest 0 0 0 (runLengths (d0 :: rest))).1,
          some (pickBest 0 0 0 (runLengths (d0 :: rest))).2.1,
          some (pickBest 0 0 0 (runLengths (d0 :: rest))).2.2⟩ := by
      rw [calcStreaks]
      rw [streakGo_eq_pickBest rest d0 1 d0 0 0 0 (by omega) (by omega),
        mergePending_self d0 rest]
    obtain ⟨k0, tl0, heq0, hk0⟩ := runLengths_cons d0 rest
    have hmaxpos : 0 < maxRunLen (runLengths (d0 :: rest)) := by
      rw [heq0, maxRunLen_cons]
      simp only
      omega
    obtain ⟨p, hp, hpick, hmax⟩ :=
      pickBest_achieved (runLengths (d0 :: rest)) 0 0 0 hmaxpos
    refine ⟨p.1, ?_, ?_, ?_, ?_, ?_⟩
    · rw [hcalc, hpick]
    · rw [hcalc, hpick]
    · rw [hcalc, hpick]
      simp only
      rw [hmax, heq0, maxRunLen_cons]
      simp only
      omega
    · intro k hk
      rw [hcalc, hpick] at hk
      simp only at hk
      exact runLengths_sound (d0 :: rest) p hp k hk
    · intro n e hcons
      rw [hcalc, hpick]
      simp only
      rw [hmax]
      exact maxRun_bound (d0 :: rest) n e hpair hcons
  · decide

/-- C6 witness: the specification's example date set. -/
theorem streak_correct_witness :
    ∃ d : ℕ,
      (calcStreaks [20089, 20090, 20091, 20098]).longestStreakStart = some d ∧
      (calcStreaks [20089, 20090, 20091, 20098]).longestStreakEnd =
        some (d + (calcStreaks [20089, 20090, 20091, 20098]).longestStreak - 1) ∧
      1 ≤ (calcStreaks [20089, 20090, 20091, 20098]).longestStreak ∧
      (∀ k < (calcStreaks [20089, 20090, 20091, 20098]).longestStreak,
        d + k ∈ [20089, 20090, 20091, 20098]) ∧
      (∀ n e, (∀ k < n, e + k ∈ [20089, 20090, 20091, 20098]) →
        n ≤ (calcStreaks [20089, 20090, 20091, 20098]).longestStreak) :=
  streak_correct.1 [20089, 20090, 20091, 20098]
    (by norm_num [List.chain'_cons]) (by simp)

/-- C1 witness: the starved upstream instance. -/
theorem snapshot_ignores_truncation_witness :
    searchAllCommitsByUser starvedUpstream 2025 = [] ∧
    generateWrapped starvedUpstream 2025 = generateWrapped cleanUpstream 2025 :=
  snapshot_ignores_truncation starvedUpstream 2025 (fun _ _ => rfl)

end GithubWrapped
